import Mathlib

/-!
Verification development for `pdf_tools.py` (download / merge / compress
pipeline).  Each Python function relevant to the specification is embedded
as a computable Lean definition; fallible external effects (HTTP requests,
Ghostscript subprocess runs) appear as explicit `Option`-typed parameters:
`some s` for a run that succeeds leaving an output of `s` bytes, `none` for
a run that raises.  Python strings are modelled as their code-point lists
(`List Char`) where character-level operations matter.
-/

/- ===================== Download: filename derivation ===================== -/

/-- Characters kept unchanged by the regex `[^a-zA-Z0-9._-]` in
`download_pdf`; every other character is replaced by an underscore. -/
def keepChar (c : Char) : Bool :=
  ('a' ≤ c && c ≤ 'z') || ('A' ≤ c && c ≤ 'Z') || ('0' ≤ c && c ≤ '9') ||
    c == '.' || c == '_' || c == '-'

/-- Python `re.sub(r'[^a-zA-Z0-9._-]', '_', s)` over the code points. -/
def sanitizeName (s : List Char) : List Char :=
  s.map (fun c => if keepChar c then c else '_')

/-- Python `s.split(sep)` for a one-character separator: no collapsing of
adjacent separators, and the empty string splits to `[""]`. -/
def splitOnChar (sep : Char) : List Char → List (List Char)
  | [] => [[]]
  | c :: cs =>
      let r := splitOnChar sep cs
      if c == sep then [] :: r
      else
        match r with
        | [] => [[c]]
        | g :: gs => (c :: g) :: gs

/-- Boolean list-prefix test (used to express `str.startswith`). -/
def isPrefixCL : List Char → List Char → Bool
  | [], _ => true
  | _ :: _, [] => false
  | a :: as, b :: bs => a == b && isPrefixCL as bs

/-- Python `s.endswith(pat)`. -/
def hasSuffixCL (pat s : List Char) : Bool :=
  isPrefixCL pat.reverse s.reverse

/-- Python `pdf_url.split('/')[-1].split('?')[0]`: last `/`-separated
segment of the URL with any query string stripped. -/
def urlBasename (url : List Char) : List Char :=
  ((splitOnChar '?' ((splitOnChar '/' url).getLastD [])).headD [])

/-- Filename computation of `download_pdf` (lines 25-32).  Python first
joins `download_dir` with the URL basename (`os.path.join`, modelled as
concatenation with `/` for a relative basename and a nonempty directory),
then applies the sanitizing regex to the whole joined path, then appends
`.pdf` unless the lowercased name already ends in `.pdf`. -/
def downloadFilename (pdfUrl downloadDir : List Char) : List Char :=
  let joined := downloadDir ++ '/' :: urlBasename pdfUrl
  let cleaned := sanitizeName joined
  if hasSuffixCL ".pdf".toList (cleaned.map Char.toLower) then cleaned
  else cleaned ++ ".pdf".toList

/- ===================== Download: batch outcome counting ===================== -/

/-- Result of one download unit as observed by the collection loop of
`download_pdfs_from_url`: `future.result()` returns `(True, filename)`,
returns `(False, None)` after exhausted retries or a fatal error, or
raises an exception (caught by the loop's `except` clause). -/
inductive FetchOutcome where
  | ok (filename : String)
  | failed
  | raised (msg : String)
deriving DecidableEq

/-- Whether the unit counts as a successful download. -/
def isOk : FetchOutcome → Bool
  | .ok _ => true
  | .failed => false
  | .raised _ => false

/-- Body of the result-collection loop (lines 115-127): a success
increments `successful_downloads`, a failure or a raised exception
increments `failed_downloads`. -/
def countStep (acc : ℕ × ℕ) (r : FetchOutcome) : ℕ × ℕ :=
  match r with
  | .ok _ => (acc.1 + 1, acc.2)
  | .failed => (acc.1, acc.2 + 1)
  | .raised _ => (acc.1, acc.2 + 1)

/-- The `(successful_downloads, failed_downloads)` totals produced by the
collection loop over the per-unit outcomes (in completion order). -/
def countOutcomes (rs : List FetchOutcome) : ℕ × ℕ :=
  rs.foldl countStep (0, 0)

/-- Number of successful outcomes in a batch. -/
def numOk : List FetchOutcome → ℕ
  | [] => 0
  | r :: t => (if isOk r then 1 else 0) + numOk t

/-- Number of permanently failed outcomes in a batch (exhausted retries or
a raised exception). -/
def numFailures : List FetchOutcome → ℕ
  | [] => 0
  | r :: t => (if isOk r then 0 else 1) + numFailures t

/-- Return value of `download_pdfs_from_url` (lines 58-142): `none` when
the page fetch raises or when no PDF links are found; otherwise the
download directory together with the success/failure counts — returned
regardless of how many downloads succeeded. -/
def downloadReturn (page : Option (List String)) (outcomes : List FetchOutcome) :
    Option (String × ℕ × ℕ) :=
  match page with
  | none => none
  | some links =>
      if links.isEmpty then none
      else some ("download_dir", countOutcomes outcomes)

/- ===================== Compression ===================== -/

/-- Exact value of Python's `size / (1024 * 1024)` megabyte conversion. -/
def mbOf (s : ℕ) : ℚ := (s : ℚ) / (1024 * 1024)

/-- Ghostscript quality table of `compress_pdf` (lines 266-271). -/
def qualitySettings : List (String × String) :=
  [("screen", "/screen"), ("ebook", "/ebook"),
   ("printer", "/printer"), ("prepress", "/prepress")]

/-- Python `quality_settings.get(quality, '/ebook')` (line 273). -/
def gsSetting (quality : String) : String :=
  (((qualitySettings.find? (fun p => p.1 == quality)).map (fun p => p.2)).getD "/ebook")

/-- Result of `compress_pdf`: the returned triple
`(success, original_size, compressed_size)`, with `committedSize` the byte
size of the file left at `output_file`. -/
structure CPResult where
  success : Bool
  originalSize : ℕ
  committedSize : ℕ
deriving DecidableEq

/-- `compress_pdf` (lines 264-295): run Ghostscript with the selected
preset; on success the output file holds the filter's result, on
`CalledProcessError` the input is copied unchanged to the output and the
function reports failure with the original size twice. -/
def compressPdf (inputSize : ℕ) (filterResult : Option ℕ) : CPResult :=
  match filterResult with
  | some s => ⟨true, inputSize, s⟩
  | none => ⟨false, inputSize, inputSize⟩

/-- Observable result of `super_compress_pdf`: the byte size of the file
committed at `output_file` (`none` when no output was produced), whether
the `_more_compressed` temporary artifact is left behind, and the returned
pair `(compressed_size_mb < 100, size_mb)`. -/
structure SCResult where
  committed : Option ℕ
  leftoverAggressive : Bool
  retUnder : Bool
  retSizeMB : ℚ
deriving DecidableEq

/-- `super_compress_pdf` (lines 297-380).  `pass1` and `pass2` are the two
Ghostscript runs (`some s` = exit 0 with an `s`-byte output, `none` = a
raised `CalledProcessError`, modelled as leaving no output file).  The
aggressive second pass runs only when the first result exceeds 100 MB; the
strictly smaller artifact replaces the first (ties keep the first); a
raised pass falls into the `except` clause, which returns
`(False, original_size_mb)` without copying anything. -/
def superCompressPdf (origSize : ℕ) (pass1 pass2 : Option ℕ) : SCResult :=
  match pass1 with
  | none => ⟨none, false, false, mbOf origSize⟩
  | some s1 =>
      if 100 < mbOf s1 then
        match pass2 with
        | none => ⟨some s1, false, false, mbOf origSize⟩
        | some s2 =>
            if s2 < s1 then ⟨some s2, false, decide (mbOf s2 < 100), mbOf s2⟩
            else ⟨some s1, false, decide (mbOf s1 < 100), mbOf s1⟩
      else ⟨some s1, false, decide (mbOf s1 < 100), mbOf s1⟩

/- ===================== Pipeline chaining (`main`, `all` command) ===================== -/

/-- Size/pages/path triple `(file_size, num_pages, pdf_path)` as collected
into `valid_pdfs` by `merge_pdfs`. -/
abbrev PdfItem := ℕ × ℕ × String

/-- Return value of `merge_pdfs` as far as stage chaining is concerned
(lines 185-260): `none` when no PDF files are found or none is valid
(size 0); otherwise the output directory — returned even when every
per-bucket merge failed. -/
def mergePdfsReturn (items : List PdfItem) : Option String :=
  if (items.filter (fun it => 0 < it.1)).isEmpty then none else some "Merged_PDFs"

/-- Which later stages of the `all` command actually execute. -/
structure RunTrace where
  ranMerge : Bool
  ranCompress : Bool
deriving DecidableEq

/-- Stage chaining of `main` for the `all` command (lines 527-545): merge
runs iff `download_pdfs_from_url` returned a directory; compression runs
iff `merge_pdfs` then returned a directory.  `mergedItems` are the items
the merge stage finds in the download directory. -/
def mainAll (page : Option (List String)) (outcomes : List FetchOutcome)
    (mergedItems : List PdfItem) : RunTrace :=
  match downloadReturn page outcomes with
  | none => ⟨false, false⟩
  | some _ => ⟨true, (mergePdfsReturn mergedItems).isSome⟩

/- ===================== Theorems: C10, C4, C5, C6, C7, C8 ===================== -/

/-- C10: any quality string outside the four known presets makes
`compress_pdf` fall back to the `/ebook` setting; the lookup is total and
never fails. -/
theorem unknown_quality_default (q : String)
    (h1 : q ≠ "screen") (h2 : q ≠ "ebook") (h3 : q ≠ "printer") (h4 : q ≠ "prepress") :
    gsSetting q = "/ebook" := by
  have e1 : (("screen" : String) == q) = false := by
    simp [beq_iff_eq]; exact fun hh => h1 hh.symm
  have e2 : (("ebook" : String) == q) = false := by
    simp [beq_iff_eq]; exact fun hh => h2 hh.symm
  have e3 : (("printer" : String) == q) = false := by
    simp [beq_iff_eq]; exact fun hh => h3 hh.symm
  have e4 : (("prepress" : String) == q) = false := by
    simp [beq_iff_eq]; exact fun hh => h4 hh.symm
  simp [gsSetting, qualitySettings, List.find?, e1, e2, e3, e4]

/-- Witness for C10 at the concrete quality string "bogus". -/
theorem unknown_quality_default_w : gsSetting "bogus" = "/ebook" :=
  unknown_quality_default "bogus" (by decide) (by decide) (by decide) (by decide)

/-- C4 is a code bug: the sanitizing regex is applied to the whole joined
path, so the `/` separating the destination directory from the URL-derived
name is itself replaced with `_`, and the file is written to the current
working directory under a fused name instead of inside the destination
directory. -/
theorem download_filename_escapes_dir :
    downloadFilename "http://example.com/docs/a.pdf".toList "PDF_Downloads_site".toList
      = "PDF_Downloads_site_a.pdf".toList
    ∧ isPrefixCL ("PDF_Downloads_site".toList ++ ['/'])
        (downloadFilename "http://example.com/docs/a.pdf".toList "PDF_Downloads_site".toList)
      = false := by
  exact ⟨by decide, by decide⟩

/-- C5: for every multiset of per-unit outcomes with `k` permanent
failures (exhausted retries or a raised exception — both captured, never
re-raised out of the loop), the batch reports exactly `N - k` successes
and `k` failures, and the two counts total `N`, so every unit yields
exactly one outcome. -/
theorem fetch_batch_counts (rs : List FetchOutcome) :
    (countOutcomes rs).1 + (countOutcomes rs).2 = rs.length
    ∧ (countOutcomes rs).2 = numFailures rs
    ∧ (countOutcomes rs).1 = rs.length - numFailures rs := by
  have key : ∀ (l : List FetchOutcome) (a b : ℕ),
      l.foldl countStep (a, b) = (a + numOk l, b + numFailures l) := by
    intro l
    induction l with
    | nil => intro a b; simp [numOk, numFailures]
    | cons r t ih =>
        intro a b
        cases r with
        | ok f =>
            show List.foldl countStep (a + 1, b) t = _
            rw [ih]
            simp [numOk, numFailures, isOk, Prod.ext_iff]
            omega
        | failed =>
            show List.foldl countStep (a, b + 1) t = _
            rw [ih]
            simp [numOk, numFailures, isOk, Prod.ext_iff]
            omega
        | raised m =>
            show List.foldl countStep (a, b + 1) t = _
            rw [ih]
            simp [numOk, numFailures, isOk, Prod.ext_iff]
            omega
  have hc : ∀ l : List FetchOutcome, numOk l + numFailures l = l.length := by
    intro l
    induction l with
    | nil => simp [numOk, numFailures]
    | cons r t ih =>
        cases r <;> simp [numOk, numFailures, isOk] <;> omega
  have h0 : countOutcomes rs = (numOk rs, numFailures rs) := by
    have h := key rs 0 0
    simpa [countOutcomes] using h
  have hlen := hc rs
  refine ⟨?_, ?_, ?_⟩
  · simp [h0]
    omega
  · simp [h0]
  · simp [h0]
    omega

/-- C6: in the two-pass escalation of `super_compress_pdf` (first result
over the 100 MB ceiling), when both passes succeed the committed output is
the strictly smaller result and the losing artifact is removed; a tie
keeps the baseline; and when the aggressive pass raises, the baseline
result remains committed at the output path even though it exceeds the
ceiling. -/
theorem super_compress_two_pass (o s1 s2 : ℕ) (hover : 100 < mbOf s1) :
    ((s2 < s1 → (superCompressPdf o (some s1) (some s2)).committed = some s2)
    ∧ (s1 ≤ s2 → (superCompressPdf o (some s1) (some s2)).committed = some s1)
    ∧ (superCompressPdf o (some s1) (some s2)).leftoverAggressive = false)
    ∧ (superCompressPdf o (some s1) none).committed = some s1 := by
  refine ⟨⟨?_, ?_, ?_⟩, ?_⟩
  · intro hlt
    simp [superCompressPdf, if_pos hover, if_pos hlt]
  · intro hle
    have hnl : ¬ (s2 < s1) := not_lt.mpr hle
    simp [superCompressPdf, if_pos hover, if_neg hnl]
  · by_cases hlt : s2 < s1
    · simp [superCompressPdf, if_pos hover, if_pos hlt]
    · simp [superCompressPdf, if_pos hover, if_neg hlt]
  · simp [superCompressPdf, if_pos hover]

/-- Witness for C6: 150 MB baseline result, 99 MB aggressive result. -/
theorem super_compress_two_pass_w :
    (superCompressPdf 314572800 (some 157286400) (some 103809024)).committed = some 103809024
    ∧ (superCompressPdf 314572800 (some 157286400) (some 103809024)).leftoverAggressive = false
    ∧ (superCompressPdf 314572800 (some 157286400) none).committed = some 157286400 := by
  have h := super_compress_two_pass 314572800 157286400 103809024 (by norm_num [mbOf])
  exact ⟨h.1.1 (by norm_num), h.1.2.2, h.2⟩

/-- C7 counterexample: an input of 10 bytes (far below the 100 MB ceiling)
whose filter run succeeds with a 20-byte result gets a committed output
strictly larger than the input — `compress_pdf` never compares the
filter's output with the input — and an under-ceiling input routed through
`super_compress_pdf` whose first pass inflates it past the ceiling is
reported with the under-ceiling flag false. -/
theorem compress_not_size_bounded :
    (compressPdf 10 (some 20)).committedSize = 20
    ∧ ¬ ((compressPdf 10 (some 20)).committedSize ≤ 10)
    ∧ (10 : ℕ) < 104857600
    ∧ (superCompressPdf 10 (some 209715200) none).retUnder = false := by
  refine ⟨rfl, by decide, by decide, ?_⟩
  have h : (100 : ℚ) < mbOf 209715200 := by norm_num [mbOf]
  simp [superCompressPdf, if_pos h]

/-- C7 amended: the committed size equals the filter's output on success
(with no bound relative to the input) and equals the input size exactly on
filter failure; the under-ceiling flag of `super_compress_pdf` is true iff
the size of the committed output is under 100 MB, not whenever the input
was. -/
theorem compress_committed_sizes (i s o : ℕ) (p1 p2 : Option ℕ) :
    (compressPdf i (some s)).committedSize = s
    ∧ (compressPdf i none).committedSize = i
    ∧ (compressPdf i none).committedSize ≤ i
    ∧ ((superCompressPdf o p1 p2).retUnder = true ↔
        ∃ t, (superCompressPdf o p1 p2).committed = some t ∧ mbOf t < 100) := by
  refine ⟨rfl, rfl, le_refl i, ?_⟩
  cases p1 with
  | none => simp [superCompressPdf]
  | some s1 =>
      by_cases hover : 100 < mbOf s1
      · cases p2 with
        | none =>
            simp [superCompressPdf, if_pos hover]
            exact le_of_lt hover
        | some s2 =>
            by_cases hlt : s2 < s1
            · simp [superCompressPdf, if_pos hover, if_pos hlt, decide_eq_true_iff]
            · simp [superCompressPdf, if_pos hover, if_neg hlt, decide_eq_true_iff]
      · simp [superCompressPdf, if_neg hover, decide_eq_true_iff]

/-- C8 counterexample: a 150 MB input whose first Ghostscript pass raises
leaves `super_compress_pdf` with no committed output at all — the input is
not copied through on the two-pass escalation path, unlike in
`compress_pdf`. -/
theorem super_compress_no_copy :
    (superCompressPdf 157286400 none none).committed ≠ some 157286400
    ∧ (superCompressPdf 157286400 none none).committed = none := by
  constructor
  · intro h
    simp [superCompressPdf] at h
  · rfl

/-- C8 amended: on the baseline single-pass path a filter failure copies
the input unchanged to the output (committed result of exactly the input
size, reported as an uncompressed success of the fallback); on the
two-pass escalation path a failure of the first pass commits nothing and
returns failure with the original size — the copy-through fallback exists
only in `compress_pdf`. -/
theorem compress_fallback_paths (i o : ℕ) (p2 : Option ℕ) :
    compressPdf i none = ⟨false, i, i⟩
    ∧ superCompressPdf o none p2 = ⟨none, false, false, mbOf o⟩ := by
  exact ⟨rfl, rfl⟩

/- ===================== Balanced partitioner (merge_pdfs) ===================== -/

/-- The items `merge_pdfs` keeps (line 214): `file_size > 0`. -/
def validItems (items : List PdfItem) : List PdfItem :=
  items.filter (fun it => decide (0 < it.1))

/-- Python `min(list)` over naturals (0 on the empty list, which Python
would reject with a ValueError). -/
def minD : List ℕ → ℕ
  | [] => 0
  | x :: xs => xs.foldl min x

/-- Python `bucket_sizes.index(min(bucket_sizes))` (line 241): the lowest
index holding the minimum value. -/
def minIdx : List ℕ → ℕ
  | [] => 0
  | [_] => 0
  | x :: y :: ys => if x ≤ minD (y :: ys) then 0 else minIdx (y :: ys) + 1

/-- In-place update `l[i] = f(l[i])` of a Python list (no effect when the
index is out of range). -/
def modifyAt (f : α → α) : ℕ → List α → List α
  | _, [] => []
  | 0, x :: xs => f x :: xs
  | n + 1, x :: xs => x :: modifyAt f n xs

/-- One iteration of the assignment loop of `merge_pdfs` (lines 239-243):
find the bucket with the smallest current total, append the item's path to
it and add the item's size to its total. -/
def greedyStep (st : List (List String) × List ℕ) (it : PdfItem) :
    List (List String) × List ℕ :=
  let i := minIdx st.2
  (modifyAt (fun b => b ++ [it.2.2]) i st.1, modifyAt (fun s => s + it.1) i st.2)

/-- The whole assignment loop, starting from `num_output_files` empty
buckets with zero totals (lines 231-243). -/
def greedyAssign (items : List PdfItem) (k : ℕ) : List (List String) × List ℕ :=
  items.foldl greedyStep (List.replicate k [], List.replicate k 0)

/-- Python string comparison (`<`), lexicographic over code points. -/
def strLtCL : List Char → List Char → Bool
  | [], [] => false
  | [], _ :: _ => true
  | _ :: _, [] => false
  | a :: as, b :: bs => if a < b then true else if b < a then false else strLtCL as bs

/-- Descending lexicographic comparison of `(size, pages, path)` triples:
the order `valid_pdfs.sort(reverse=True)` arranges by (line 236). -/
def tupleGE (a b : PdfItem) : Bool :=
  decide (b.1 < a.1) || (a.1 == b.1 &&
    (decide (b.2.1 < a.2.1) || (a.2.1 == b.2.1 && !strLtCL a.2.2.toList b.2.2.toList)))

/-- Stable insertion into a descending-sorted list. -/
def insertDesc (x : PdfItem) : List PdfItem → List PdfItem
  | [] => [x]
  | y :: ys => if tupleGE x y then x :: y :: ys else y :: insertDesc x ys

/-- Stable descending sort.  `tupleGE` is a total order whose only ties
are between identical triples, so this insertion sort coincides with
Python's stable `sort(reverse=True)`. -/
def sortDesc (l : List PdfItem) : List PdfItem := l.foldr insertDesc []

/-- Bucket assignment of `merge_pdfs` (lines 209-243): keep the items with
positive size, cap the bucket count at the number of valid items, sort
descending and run the greedy loop; `none` models the
`if not valid_pdfs: return None` early exit. -/
def mergeBuckets (items : List PdfItem) (numOutputFiles : ℕ) :
    Option (List (List String) × List ℕ) :=
  let valid := validItems items
  if valid.isEmpty then none
  else some (greedyAssign (sortDesc valid) (min numOutputFiles valid.length))

/-- Total weight (byte size) of a list of items. -/
def sumW (l : List PdfItem) : ℕ := (l.map (fun it => it.1)).sum

/-- Largest single item weight (0 on the empty list). -/
def maxW (l : List PdfItem) : ℕ := (l.map (fun it => it.1)).foldr max 0

/-- Concrete scenario of the spec: five valid documents with sizes
50, 40, 30, 20, 10, merged into 3 buckets. -/
def scenarioItems : List PdfItem :=
  [(50, 0, "a"), (40, 0, "b"), (30, 0, "c"), (20, 0, "d"), (10, 0, "e")]

/- ===================== Partitioner lemmas ===================== -/

lemma foldl_min_le_init : ∀ (l : List ℕ) (a : ℕ), l.foldl min a ≤ a := by
  intro l
  induction l with
  | nil => intro a; exact le_refl a
  | cons x xs ih =>
      intro a
      calc (x :: xs).foldl min a = xs.foldl min (min a x) := rfl
        _ ≤ min a x := ih (min a x)
        _ ≤ a := min_le_left a x

lemma foldl_min_le_mem : ∀ (l : List ℕ) (a b : ℕ), b ∈ l → l.foldl min a ≤ b := by
  intro l
  induction l with
  | nil => intro a b hb; cases hb
  | cons x xs ih =>
      intro a b hb
      rcases List.mem_cons.mp hb with h | h
      · subst h
        calc (b :: xs).foldl min a = xs.foldl min (min a b) := rfl
          _ ≤ min a b := foldl_min_le_init xs (min a b)
          _ ≤ b := min_le_right a b
      · exact ih (min a x) b h

lemma minD_le (l : List ℕ) (a : ℕ) (h : a ∈ l) : minD l ≤ a := by
  cases l with
  | nil => cases h
  | cons x xs =>
      rcases List.mem_cons.mp h with h1 | h1
      · subst h1
        exact foldl_min_le_init xs a
      · exact foldl_min_le_mem xs x a h1

lemma foldl_min_comm : ∀ (l : List ℕ) (a b : ℕ),
    l.foldl min (min a b) = min a (l.foldl min b) := by
  intro l
  induction l with
  | nil => intro a b; rfl
  | cons c t ih =>
      intro a b
      show t.foldl min (min (min a b) c) = min a (t.foldl min (min b c))
      rw [min_assoc]
      exact ih a (min b c)

lemma minD_cons2 (x y : ℕ) (ys : List ℕ) : minD (x :: y :: ys) = min x (minD (y :: ys)) := by
  show ys.foldl min (min x y) = min x (ys.foldl min y)
  exact foldl_min_comm ys x y

lemma minIdx_lt_length : ∀ (l : List ℕ), l ≠ [] → minIdx l < l.length := by
  intro l
  induction l with
  | nil => intro h; exact absurd rfl h
  | cons x xs ih =>
      intro _
      cases xs with
      | nil => simp [minIdx]
      | cons y ys =>
          by_cases h : x ≤ minD (y :: ys)
          · simp [minIdx, h]
          · have h2 := ih (by simp)
            simp only [minIdx, if_neg h, List.length_cons] at h2 ⊢
            omega

lemma getD_minIdx : ∀ (l : List ℕ), l ≠ [] → l.getD (minIdx l) 0 = minD l := by
  intro l
  induction l with
  | nil => intro h; exact absurd rfl h
  | cons x xs ih =>
      intro _
      cases xs with
      | nil => rfl
      | cons y ys =>
          by_cases h : x ≤ minD (y :: ys)
          · have h0 : minIdx (x :: y :: ys) = 0 := by simp [minIdx, h]
            rw [h0]
            show x = minD (x :: y :: ys)
            rw [minD_cons2]
            exact (min_eq_left h).symm
          · have h1 : minIdx (x :: y :: ys) = minIdx (y :: ys) + 1 := by simp [minIdx, h]
            rw [h1]
            show (y :: ys).getD (minIdx (y :: ys)) 0 = minD (x :: y :: ys)
            rw [ih (by simp), minD_cons2]
            exact (min_eq_right (le_of_not_le h)).symm

lemma length_modifyAt (f : α → α) : ∀ (i : ℕ) (l : List α),
    (modifyAt f i l).length = l.length := by
  intro i l
  induction l generalizing i with
  | nil => cases i <;> rfl
  | cons x xs ih =>
      cases i with
      | zero => rfl
      | succ n =>
          show (x :: modifyAt f n xs).length = (x :: xs).length
          simp [ih n]

lemma sum_modifyAt_add (w : ℕ) : ∀ (i : ℕ) (l : List ℕ), i < l.length →
    (modifyAt (fun s => s + w) i l).sum = l.sum + w := by
  intro i l
  induction l generalizing i with
  | nil => intro h; simp at h
  | cons x xs ih =>
      intro h
      cases i with
      | zero =>
          show (x + w) + xs.sum = (x + xs.sum) + w
          omega
      | succ n =>
          have hn : n < xs.length := by simp at h; omega
          show x + (modifyAt (fun s => s + w) n xs).sum = (x + xs.sum) + w
          rw [ih n hn]
          omega

lemma mem_modifyAt_nat (f : ℕ → ℕ) : ∀ (i : ℕ) (l : List ℕ) (b : ℕ),
    b ∈ modifyAt f i l → b ∈ l ∨ b = f (l.getD i 0) := by
  intro i l
  induction l generalizing i with
  | nil => intro b hb; cases i <;> cases hb
  | cons x xs ih =>
      intro b hb
      cases i with
      | zero =>
          rcases List.mem_cons.mp hb with h | h
          · right; exact h
          · left; exact List.mem_cons_of_mem x h
      | succ n =>
          rcases List.mem_cons.mp hb with h | h
          · left; rw [h]; exact List.mem_cons_self x xs
          · rcases ih n b h with h1 | h1
            · left; exact List.mem_cons_of_mem x h1
            · right; exact h1

lemma flatten_modifyAt_perm (p : String) : ∀ (i : ℕ) (l : List (List String)), i < l.length →
    List.Perm (modifyAt (fun b => b ++ [p]) i l).flatten (l.flatten ++ [p]) := by
  intro i l
  induction l generalizing i with
  | nil => intro h; simp at h
  | cons x xs ih =>
      intro h
      cases i with
      | zero =>
          show List.Perm ((x ++ [p]) :: xs).flatten ((x :: xs).flatten ++ [p])
          rw [List.flatten_cons, List.flatten_cons, List.append_assoc, List.append_assoc]
          exact List.Perm.append_left x List.perm_append_comm
      | succ n =>
          have hn : n < xs.length := by simp at h; omega
          show List.Perm (x :: modifyAt (fun b => b ++ [p]) n xs).flatten
            ((x :: xs).flatten ++ [p])
          rw [List.flatten_cons, List.flatten_cons, List.append_assoc]
          exact List.Perm.append_left x (ih n hn)

lemma flatten_replicate_nil : ∀ k : ℕ, (List.replicate k ([] : List String)).flatten = [] := by
  intro k
  induction k with
  | zero => rfl
  | succ n ih => simp [List.replicate, List.flatten_cons, ih]

lemma insertDesc_perm (x : PdfItem) : ∀ l : List PdfItem, List.Perm (insertDesc x l) (x :: l) := by
  intro l
  induction l with
  | nil => exact List.Perm.refl _
  | cons y ys ih =>
      show List.Perm (if tupleGE x y then x :: y :: ys else y :: insertDesc x ys) (x :: y :: ys)
      by_cases h : tupleGE x y = true
      · rw [if_pos h]
      · rw [if_neg h]
        exact (List.Perm.cons y ih).trans (List.Perm.swap x y ys)

lemma sortDesc_perm : ∀ l : List PdfItem, List.Perm (sortDesc l) l := by
  intro l
  induction l with
  | nil => exact List.Perm.refl _
  | cons x xs ih =>
      show List.Perm (insertDesc x (sortDesc xs)) (x :: xs)
      exact (insertDesc_perm x (sortDesc xs)).trans (List.Perm.cons x ih)

lemma le_maxW : ∀ (l : List PdfItem) (it : PdfItem), it ∈ l → it.1 ≤ maxW l := by
  intro l
  induction l with
  | nil => intro it h; cases h
  | cons x xs ih =>
      intro it h
      rcases List.mem_cons.mp h with h1 | h1
      · rw [h1]
        show x.1 ≤ max x.1 (maxW xs)
        exact le_max_left _ _
      · exact le_trans (ih it h1) (le_max_right x.1 (maxW xs))

lemma length_mul_le_sum : ∀ (l : List ℕ) (m : ℕ), (∀ a ∈ l, m ≤ a) → l.length * m ≤ l.sum := by
  intro l
  induction l with
  | nil => intro m _; simp
  | cons x t ih =>
      intro m hm
      have h1 : t.length * m ≤ t.sum := ih m (fun a ha => hm a (List.mem_cons_of_mem x ha))
      have h2 : m ≤ x := hm x (List.mem_cons_self x t)
      rw [List.length_cons, List.sum_cons, Nat.succ_mul]
      omega

lemma greedy_fold : ∀ (l : List PdfItem) (bs : List (List String)) (ws : List ℕ),
    bs.length = ws.length → 0 < ws.length →
    (l.foldl greedyStep (bs, ws)).2.length = ws.length
    ∧ (l.foldl greedyStep (bs, ws)).1.length = bs.length
    ∧ (l.foldl greedyStep (bs, ws)).2.sum = ws.sum + sumW l
    ∧ List.Perm (l.foldl greedyStep (bs, ws)).1.flatten
        (bs.flatten ++ l.map (fun it => it.2.2)) := by
  intro l
  induction l with
  | nil =>
      intro bs ws _ _
      exact ⟨rfl, rfl, by simp [sumW], by simp⟩
  | cons it t ih =>
      intro bs ws hlen hpos
      have hne : ws ≠ [] := List.ne_nil_of_length_pos hpos
      have hidx : minIdx ws < ws.length := minIdx_lt_length ws hne
      have hidxb : minIdx ws < bs.length := by rw [hlen]; exact hidx
      have hstep : List.foldl greedyStep (bs, ws) (it :: t)
          = List.foldl greedyStep
              (modifyAt (fun b => b ++ [it.2.2]) (minIdx ws) bs,
               modifyAt (fun s => s + it.1) (minIdx ws) ws) t := rfl
      have hlen2 : (modifyAt (fun s => s + it.1) (minIdx ws) ws).length = ws.length :=
        length_modifyAt _ _ _
      have hlenb2 : (modifyAt (fun b => b ++ [it.2.2]) (minIdx ws) bs).length = bs.length :=
        length_modifyAt _ _ _
      have hsum2 : (modifyAt (fun s => s + it.1) (minIdx ws) ws).sum = ws.sum + it.1 :=
        sum_modifyAt_add it.1 (minIdx ws) ws hidx
      have hflat2 : List.Perm (modifyAt (fun b => b ++ [it.2.2]) (minIdx ws) bs).flatten
          (bs.flatten ++ [it.2.2]) := flatten_modifyAt_perm it.2.2 (minIdx ws) bs hidxb
      have ihr := ih (modifyAt (fun b => b ++ [it.2.2]) (minIdx ws) bs)
        (modifyAt (fun s => s + it.1) (minIdx ws) ws)
        (by rw [hlenb2, hlen2, hlen]) (by rw [hlen2]; exact hpos)
      rw [hstep]
      refine ⟨by rw [ihr.1, hlen2], by rw [ihr.2.1, hlenb2], ?_, ?_⟩
      · rw [ihr.2.2.1, hsum2]
        have hsw : sumW (it :: t) = it.1 + sumW t := by simp [sumW]
        rw [hsw]
        omega
      · refine (ihr.2.2.2).trans ?_
        refine (List.Perm.append_right _ hflat2).trans ?_
        rw [List.append_assoc]
        exact List.Perm.refl _

lemma greedy_bound : ∀ (l : List PdfItem) (M : ℕ), (∀ it ∈ l, it.1 ≤ M) →
    ∀ (bs : List (List String)) (ws : List ℕ), 0 < ws.length →
    (∀ b ∈ ws, ws.length * b ≤ ws.sum + (ws.length - 1) * M) →
    ∀ b ∈ (l.foldl greedyStep (bs, ws)).2,
      ws.length * b ≤ (l.foldl greedyStep (bs, ws)).2.sum + (ws.length - 1) * M := by
  intro l
  induction l with
  | nil =>
      intro M _ bs ws _ hinv b hb
      exact hinv b hb
  | cons it t ih =>
      intro M hM bs ws hpos hinv b hb
      have hne : ws ≠ [] := List.ne_nil_of_length_pos hpos
      have hidx : minIdx ws < ws.length := minIdx_lt_length ws hne
      have hlen2 : (modifyAt (fun s => s + it.1) (minIdx ws) ws).length = ws.length :=
        length_modifyAt _ _ _
      have hsum2 : (modifyAt (fun s => s + it.1) (minIdx ws) ws).sum = ws.sum + it.1 :=
        sum_modifyAt_add it.1 (minIdx ws) ws hidx
      have hMin : ws.getD (minIdx ws) 0 = minD ws := getD_minIdx ws hne
      have hksmall : ws.length * (ws.getD (minIdx ws) 0) ≤ ws.sum := by
        refine length_mul_le_sum ws _ ?_
        intro a ha
        rw [hMin]
        exact minD_le ws a ha
      have hwM : it.1 ≤ M := hM it (List.mem_cons_self it t)
      have hinv2 : ∀ b2 ∈ modifyAt (fun s => s + it.1) (minIdx ws) ws,
          (modifyAt (fun s => s + it.1) (minIdx ws) ws).length * b2
            ≤ (modifyAt (fun s => s + it.1) (minIdx ws) ws).sum
              + ((modifyAt (fun s => s + it.1) (minIdx ws) ws).length - 1) * M := by
        intro b2 hb2
        rw [hlen2, hsum2]
        rcases mem_modifyAt_nat _ (minIdx ws) ws b2 hb2 with h | h
        · have := hinv b2 h
          omega
        · rw [h]
          have e1 : ws.length * (ws.getD (minIdx ws) 0 + it.1)
              = ws.length * (ws.getD (minIdx ws) 0) + ws.length * it.1 := Nat.mul_add _ _ _
          have e2 : ws.length * it.1 = (ws.length - 1) * it.1 + it.1 := by
            have h1 : ws.length - 1 + 1 = ws.length := Nat.succ_pred_eq_of_pos hpos
            calc ws.length * it.1 = (ws.length - 1 + 1) * it.1 := by rw [h1]
              _ = (ws.length - 1) * it.1 + it.1 := by rw [Nat.succ_mul]
          have e3 : (ws.length - 1) * it.1 ≤ (ws.length - 1) * M :=
            Nat.mul_le_mul_left _ hwM
          omega
      have hstep : List.foldl greedyStep (bs, ws) (it :: t)
          = List.foldl greedyStep
              (modifyAt (fun b => b ++ [it.2.2]) (minIdx ws) bs,
               modifyAt (fun s => s + it.1) (minIdx ws) ws) t := rfl
      rw [hstep] at hb ⊢
      have ihres := ih M (fun x hx => hM x (List.mem_cons_of_mem it hx))
        (modifyAt (fun b => b ++ [it.2.2]) (minIdx ws) bs)
        (modifyAt (fun s => s + it.1) (minIdx ws) ws)
        (by rw [hlen2]; exact hpos) hinv2 b hb
      rw [hlen2] at ihres
      exact ihres

/- ===================== Theorems: C1, C2, C3, C9 ===================== -/

/-- C1: the bucket assignment of `merge_pdfs` partitions the valid items
exactly — the multiset of paths across all buckets equals the multiset of
valid item paths, so every valid item lands in exactly one bucket and none
in more than one — and the bucket totals sum to the total valid weight. -/
theorem merge_partition_exact (items : List PdfItem) (req : ℕ) (hreq : 1 ≤ req)
    (bs : List (List String)) (ws : List ℕ)
    (h : mergeBuckets items req = some (bs, ws)) :
    List.Perm bs.flatten ((validItems items).map (fun it => it.2.2))
    ∧ ws.sum = sumW (validItems items) := by
  cases hv : (validItems items).isEmpty with
  | true => simp [mergeBuckets, hv] at h
  | false =>
      have hne : validItems items ≠ [] := by
        intro hnil
        rw [hnil] at hv
        simp at hv
      have hpos : 0 < (validItems items).length := List.length_pos.mpr hne
      have hk : 0 < min req (validItems items).length := lt_min (by omega) hpos
      simp only [mergeBuckets, hv, Bool.false_eq_true, if_false, Option.some.injEq] at h
      have hfold := greedy_fold (sortDesc (validItems items))
        (List.replicate (min req (validItems items).length) [])
        (List.replicate (min req (validItems items).length) 0)
        (by simp) (by simpa using hk)
      unfold greedyAssign at h
      rw [h] at hfold
      constructor
      · refine hfold.2.2.2.trans ?_
        rw [flatten_replicate_nil, List.nil_append]
        exact List.Perm.map _ (sortDesc_perm (validItems items))
      · rw [hfold.2.2.1]
        have hz : (List.replicate (min req (validItems items).length) (0:ℕ)).sum = 0 := by
          simp
        rw [hz, Nat.zero_add]
        exact List.Perm.sum_eq (List.Perm.map _ (sortDesc_perm (validItems items)))

/-- Witness for C1 on two items of sizes 5 and 3 with two buckets. -/
theorem merge_partition_exact_w :
    List.Perm ([["a"], ["b"]] : List (List String)).flatten
        ((validItems [(5, 0, "a"), (3, 0, "b")]).map (fun it => it.2.2))
    ∧ ([5, 3] : List ℕ).sum = sumW (validItems [(5, 0, "a"), (3, 0, "b")]) :=
  merge_partition_exact [(5, 0, "a"), (3, 0, "b")] 2 (by decide) [["a"], ["b"]] [5, 3]
    (by decide)

/-- C2 counterexample: the greedy assignment on the spec's scenario yields
final bucket weights [50, 50, 50], not the [50, 60, 40] the spec's trace
predicts (20 joins the bucket holding 30, then 10 joins the bucket holding
40). -/
theorem scenario_weights_ne_spec :
    Option.map (fun st => st.2) (mergeBuckets scenarioItems 3) = some [50, 50, 50]
    ∧ Option.map (fun st => st.2) (mergeBuckets scenarioItems 3) ≠ some [50, 60, 40] := by
  exact ⟨by decide, by decide⟩

/-- C2 amended: the deterministic greedy trace on the scenario assigns
50 to bucket 1, 40 to bucket 2, 30 to bucket 3, 20 to bucket 3 (the unique
minimum, total 30), and 10 to bucket 2 (the unique minimum, total 40),
giving final weights [50, 50, 50]; ties are indeed broken towards the
lowest index, but no tie occurs in this trace. -/
theorem scenario_weights_eval :
    mergeBuckets scenarioItems 3 = some ([["a"], ["b", "e"], ["c", "d"]], [50, 50, 50]) := by
  decide

/-- C3: in the greedy assignment over any item sequence and any bucket
count `k ≥ 1`, no bucket total ever exceeds the largest single item weight
plus the average bucket weight (total valid weight divided by `k`). -/
theorem greedy_bucket_bound (items : List PdfItem) (k : ℕ) (hk : 1 ≤ k)
    (b : ℕ) (hb : b ∈ (greedyAssign (sortDesc items) k).2) :
    (b : ℚ) ≤ (maxW items : ℚ) + (sumW items : ℚ) / (k : ℚ) := by
  have hM : ∀ it ∈ sortDesc items, it.1 ≤ maxW items := by
    intro it hit
    exact le_maxW items it ((sortDesc_perm items).mem_iff.mp hit)
  have hpos : 0 < (List.replicate k (0:ℕ)).length := by
    simp only [List.length_replicate]
    omega
  have hinv0 : ∀ b2 ∈ List.replicate k (0:ℕ),
      (List.replicate k (0:ℕ)).length * b2
        ≤ (List.replicate k (0:ℕ)).sum + ((List.replicate k (0:ℕ)).length - 1) * maxW items := by
    intro b2 hb2
    rw [List.eq_of_mem_replicate hb2]
    simp
  have hbound := greedy_bound (sortDesc items) (maxW items) hM
    (List.replicate k []) (List.replicate k 0) hpos hinv0 b
    (by unfold greedyAssign at hb; exact hb)
  have hsum := (greedy_fold (sortDesc items) (List.replicate k [])
    (List.replicate k 0) (by simp) hpos).2.2.1
  rw [hsum] at hbound
  simp only [List.length_replicate, List.sum_replicate, smul_eq_mul, Nat.mul_zero,
    Nat.zero_add] at hbound
  have hsw : sumW (sortDesc items) = sumW items :=
    List.Perm.sum_eq (List.Perm.map _ (sortDesc_perm items))
  rw [hsw] at hbound
  have h2 : k * b ≤ sumW items + k * maxW items := by
    have h3 : (k - 1) * maxW items ≤ k * maxW items :=
      Nat.mul_le_mul_right _ (Nat.sub_le k 1)
    omega
  have hk0 : (0:ℚ) < (k:ℚ) := by exact_mod_cast hk
  have h3 : (b:ℚ) * (k:ℚ) ≤ (sumW items : ℚ) + (k:ℚ) * (maxW items : ℚ) := by
    rw [mul_comm]
    exact_mod_cast h2
  have h4 : (b:ℚ) ≤ ((maxW items : ℚ) * (k:ℚ) + (sumW items : ℚ)) / (k:ℚ) := by
    rw [le_div_iff₀ hk0]
    linarith
  refine h4.trans (le_of_eq ?_)
  rw [add_div]
  congr 1
  exact mul_div_cancel_right₀ _ (ne_of_gt hk0)

/-- Witness for C3 on one item of size 5 and a single bucket. -/
theorem greedy_bucket_bound_w :
    ((5 : ℕ) : ℚ) ≤ (maxW [(5, 0, "a")] : ℚ) + (sumW [(5, 0, "a")] : ℚ) / ((1 : ℕ) : ℚ) :=
  greedy_bucket_bound [(5, 0, "a")] 1 (by decide) 5 (by decide)

/-- C9 counterexample: one link found, its single download fails (zero
successful downloads), yet `download_pdfs_from_url` returns the download
directory and the merge stage runs — the pipeline is not halted at the
download stage. -/
theorem zero_success_runs_merge :
    (countOutcomes [FetchOutcome.failed]).1 = 0
    ∧ (mainAll (some ["u"]) [FetchOutcome.failed] [(5, 0, "x")]).ranMerge = true := by
  exact ⟨rfl, rfl⟩

/-- C9 amended: a failed page fetch or an empty link set halts the
pipeline before any later stage, and a merge stage without valid documents
prevents the compress stage; but a download stage with zero successful
downloads does not halt the pipeline — whenever links were found,
`download_pdfs_from_url` returns the directory and the merge stage runs
regardless of the outcome counts. -/
theorem pipeline_halting (outcomes : List FetchOutcome) (mergedItems : List PdfItem) :
    mainAll none outcomes mergedItems = ⟨false, false⟩
    ∧ mainAll (some []) outcomes mergedItems = ⟨false, false⟩
    ∧ (∀ links : List String, links ≠ [] →
        (mainAll (some links) outcomes mergedItems).ranMerge = true)
    ∧ (∀ page, mergePdfsReturn mergedItems = none →
        (mainAll page outcomes mergedItems).ranCompress = false) := by
  refine ⟨rfl, rfl, ?_, ?_⟩
  · intro links hlinks
    cases links with
    | nil => exact absurd rfl hlinks
    | cons a as => rfl
  · intro page hm
    cases page with
    | none => rfl
    | some links =>
        cases links with
        | nil => rfl
        | cons a as => simp [mainAll, downloadReturn, hm]

/-- Witness for C9's amended statement at concrete inputs. -/
theorem pipeline_halting_w :
    mainAll none [] [] = ⟨false, false⟩
    ∧ (mainAll (some ["u"]) [] []).ranMerge = true
    ∧ (mainAll (some ["u"]) [] []).ranCompress = false := by
  have h := pipeline_halting [] []
  exact ⟨h.1, h.2.2.1 ["u"] (by decide), h.2.2.2 (some ["u"]) (by decide)⟩
